import Mathlib

/-!
Verification of the Hyperliquid exchange action signing and submission
pipeline (`src/hyperliquid.ts`).  The TypeScript source is shallowly
embedded: each function below mirrors the source line by line; JS numbers
appearing as byte or index values are modelled as `Nat`, machine 64-bit
wrapping is written explicitly with `% 2 ^ 64`, JS strings are Lean
`String` or `List Char`, and fallible code returns `Option` or `Except`.
Finite floating-point inputs to the decimal codec are modelled at the
`Number.prototype.toString` boundary: the codec receives the default
decimal rendering of the double (the very string the source manipulates).
-/

namespace Hype

/-! ## Small string helpers shared by the embedded functions -/

/-- Numeric value of a list of decimal digit characters (leading zeros are
insignificant), i.e. the number denoted by the digit string. -/
def digitsVal (l : List Char) : Nat :=
  l.foldl (fun a c => a * 10 + (c.toNat - 48)) 0

/-- JS `String.prototype.padEnd(n, "0")`: append zeros up to length `n`. -/
def padEndZero (l : List Char) (n : Nat) : List Char :=
  l ++ List.replicate (n - l.length) '0'

/-- JS `Number(...)` applied to an exponent part such as `"+21"` or `"-7"`:
an optional sign followed by decimal digits. -/
def parseSignedInt (l : List Char) : Int :=
  match l with
  | '+' :: r => (digitsVal r : Int)
  | '-' :: r => -(digitsVal r : Int)
  | _ => (digitsVal l : Int)

/-- JS `str.replace(/\.0+$/, "")`: drop a trailing group of one or more
zeros that directly follows a dot and reaches the end of the string. -/
def stripDotZeros (l : List Char) : List Char :=
  let r := l.reverse
  let zs := r.takeWhile (· = '0')
  if zs ≠ [] ∧ (r.drop zs.length).head? = some '.' then
    (r.drop (zs.length + 1)).reverse
  else l

/-! ## DecimalCodec (`toApiDecimal`, src/hyperliquid.ts lines 315-341) -/

/-- A character matched by the regex `/e/i`. -/
def isExpChar (c : Char) : Bool :=
  c = 'e' ∨ c = 'E'

/-- The number branch of `toApiDecimal` (lines 328-340), operating on
`asString`, the default JS rendering of a finite double.  `split(/e/i)`
destructured as `[mantissa, exponentPart]` keeps the text before the
first exponent character and the text between the first and second one;
`mantissa.split(".")` destructured as `[integerPart, fractionalPart]`
behaves the same with dots. -/
def toApiDecimalNumChars (asString : List Char) : List Char :=
  if asString.any isExpChar then
    let mantissa := asString.takeWhile (fun c => !isExpChar c)
    let afterE := asString.drop (mantissa.length + 1)
    let exponentPart := afterE.takeWhile (fun c => !isExpChar c)
    let exponent := parseSignedInt exponentPart
    let integerPart := mantissa.takeWhile (· ≠ '.')
    let fractionalPart := (mantissa.drop (integerPart.length + 1)).takeWhile (· ≠ '.')
    if 0 ≤ exponent then
      integerPart ++ padEndZero fractionalPart (exponent.toNat + fractionalPart.length)
    else
      let zeros := List.replicate (exponent.natAbs - 1) '0'
      stripDotZeros ('0' :: '.' :: (zeros ++ integerPart ++ fractionalPart))
  else asString

/-- String-level wrapper for the number branch of `toApiDecimal`. -/
def toApiDecimalNum (asString : String) : String :=
  String.mk (toApiDecimalNumChars asString.toList)

/-- Input type of `toApiDecimal`: `string | number | bigint`.  A finite
number is represented by its default `toString` rendering (the only view
of it the codec ever uses). -/
inductive NumValue
  | str (s : String)
  | bigint (i : Int)
  | num (rendering : String)
  deriving DecidableEq

/-- `toApiDecimal` (lines 315-341): strings pass through, bigints render
in base 10, finite numbers go through the exponential re-expansion. -/
def toApiDecimal : NumValue → String
  | .str s => s
  | .bigint i => toString i
  | .num rendering => toApiDecimalNum rendering

/-! Rational valuation of decimal strings, used to state value
preservation / round-trip properties of the codec. -/

/-- Value of an unsigned decimal string `intpart.fracpart` as a rational. -/
def decValue (l : List Char) : ℚ :=
  let intPart := l.takeWhile (· ≠ '.')
  let fracPart := l.drop (intPart.length + 1)
  (digitsVal intPart : ℚ) + (digitsVal fracPart : ℚ) / 10 ^ fracPart.length

/-- Value denoted by a scientific rendering `intpart.fracpart e exp`. -/
def sciVal (intPart fracPart : List Char) (exp : Int) : ℚ :=
  ((digitsVal intPart : ℚ) + (digitsVal fracPart : ℚ) / 10 ^ fracPart.length) * 10 ^ exp

/-! ## `normalizeHex` (lines 343-346) -/

/-- JS `value.toLowerCase()` restricted to the ASCII range used by hex
strings and addresses. -/
def toLowerStr (s : String) : String :=
  String.mk (s.toList.map Char.toLower)

/-- `normalizeHex` (lines 343-346): lower-case, strip the maximal run of
leading `0` digits that directly follows a leading `0x` (regex
`/^0x0+/`, replaced by `0x`), and fall back to `"0x0"` only when the
result is the empty string. -/
def normalizeHex (value : String) : String :=
  let lower := toLowerStr value
  let stripped :=
    match lower.toList with
    | '0' :: 'x' :: rest =>
        if rest.head? = some '0' then String.mk ('0' :: 'x' :: rest.dropWhile (· = '0'))
        else String.mk ('0' :: 'x' :: rest)
    | l => String.mk l
  if stripped = "" then "0x0" else stripped

/-! ## `resolveAssetIndex` (lines 305-313) -/

/-- JS `String.prototype.trim` over the ASCII whitespace actually
occurring in symbols. -/
def trimChars (l : List Char) : List Char :=
  ((l.dropWhile Char.isWhitespace).reverse.dropWhile Char.isWhitespace).reverse

/-- JS `toUpperCase` restricted to ASCII (asset names are ASCII). -/
def upperChars (l : List Char) : List Char :=
  l.map Char.toUpper

/-- `resolveAssetIndex` (lines 305-313): `symbol.split("-")[0]`, trimmed,
compared case-insensitively against each universe entry; the thrown
`Unknown Hyperliquid asset symbol` error is modelled as `none`. -/
def resolveAssetIndex (symbol : String) (univ : List String) : Option Nat :=
  let raw := symbol.toList.takeWhile (· ≠ '-')
  let target := trimChars raw
  univ.findIdx? (fun entry => upperChars entry.toList == upperChars target)

/-! ## ActionEncoder: order preparation (lines 177-209) -/

/-- `HyperliquidTimeInForce` (lines 23-28). -/
inductive HLTif
  | Gtc
  | Ioc
  | Alo
  | FrontendMarket
  | LiquidationMarket
  deriving DecidableEq

def HLTif.str : HLTif → String
  | .Gtc => "Gtc"
  | .Ioc => "Ioc"
  | .Alo => "Alo"
  | .FrontendMarket => "FrontendMarket"
  | .LiquidationMarket => "LiquidationMarket"

/-- `HyperliquidTriggerType` (line 30). -/
inductive TriggerKind
  | tp
  | sl
  deriving DecidableEq

def TriggerKind.str : TriggerKind → String
  | .tp => "tp"
  | .sl => "sl"

/-- `HyperliquidTriggerOptions` (lines 32-36). -/
structure TriggerOptions where
  triggerPx : NumValue
  isMarket : Option Bool
  tpsl : TriggerKind
  deriving DecidableEq

/-- `HyperliquidOrderIntent` (lines 38-47); `side` keeps the source's
string union, `clientId` its hex string with leading `0x`. -/
structure OrderIntent where
  symbol : String
  side : String
  price : NumValue
  size : NumValue
  tif : Option HLTif
  reduceOnly : Option Bool
  clientId : Option String
  trigger : Option TriggerOptions
  deriving DecidableEq

/-- The `t` field of a prepared order: the source's union
`{ limit: { tif } } | { trigger: { isMarket, triggerPx, tpsl } }`. -/
inductive OrderTypeField
  | limit (tif : HLTif)
  | trigger (isMarket : Bool) (triggerPx : String) (tpsl : TriggerKind)
  deriving DecidableEq

/-- One element of `ExchangeOrderAction["orders"]` (lines 100-116). -/
structure PreparedOrder where
  a : Nat
  b : Bool
  p : String
  s : String
  r : Bool
  t : OrderTypeField
  c : Option String
  deriving DecidableEq

/-- The body of `orders.map((intent) => ...)` in `placeHyperliquidOrder`
(lines 177-209), given the already-resolved asset index: builds the
limit-or-trigger type field (`Boolean(intent.trigger.isMarket)` is
`getD false`, `intent.tif ?? "Ioc"` is `getD .Ioc`), the decimal-encoded
price and size, `r` from `intent.reduceOnly ?? false`, and a `c` field
present only when `intent.clientId` is provided. -/
def prepareOrder (intent : OrderIntent) (assetIndex : Nat) : PreparedOrder :=
  { a := assetIndex
    b := intent.side == "buy"
    p := toApiDecimal intent.price
    s := toApiDecimal intent.size
    r := intent.reduceOnly.getD false
    t :=
      match intent.trigger with
      | some tr => .trigger (tr.isMarket.getD false) (toApiDecimal tr.triggerPx) tr.tpsl
      | none => .limit (intent.tif.getD .Ioc)
    c := intent.clientId.map normalizeHex }

/-- JSON-like values as serialized onto the wire; `jnull` is available so
that "absent, not null" is a meaningful statement. -/
inductive Jx
  | jstr (s : String)
  | jnum (n : Nat)
  | jbool (b : Bool)
  | jobj (fields : List (String × Jx))
  | jnull

/-- Serialization of the `t` field: an object carrying exactly one of the
keys `limit` / `trigger`, per the source's object literals. -/
def typeFieldJson : OrderTypeField → Jx
  | .limit tif => .jobj [("limit", .jobj [("tif", .jstr tif.str)])]
  | .trigger isMarket triggerPx tpsl =>
      .jobj [("trigger", .jobj [("isMarket", .jbool isMarket),
                                ("triggerPx", .jstr triggerPx),
                                ("tpsl", .jstr tpsl.str)])]

/-- The serialized key/value sequence of one prepared order (the object
literal at lines 194-206): fields `a b p s r t` in source order, then `c`
spread in only when the client id exists (`...(intent.clientId ? { c } : {})`). -/
def orderFields (o : PreparedOrder) : List (String × Jx) :=
  [("a", .jnum o.a), ("b", .jbool o.b), ("p", .jstr o.p),
   ("s", .jstr o.s), ("r", .jbool o.r), ("t", typeFieldJson o.t)] ++
  (match o.c with
   | some cid => [("c", .jstr cid)]
   | none => [])

/-- Whether the `t` field took the trigger form. -/
def isTriggerField : OrderTypeField → Bool
  | .trigger _ _ _ => true
  | .limit _ => false

/-- Top-level keys of a serialized object. -/
def jxTopKeys : Jx → List String
  | .jobj fields => fields.map Prod.fst
  | _ => []

mutual

/-- Whether a serialized value contains `null` anywhere. -/
def jxHasNull : Jx → Bool
  | .jnull => true
  | .jobj fields => jxFieldsHaveNull fields
  | _ => false

def jxFieldsHaveNull : List (String × Jx) → Bool
  | [] => false
  | kv :: rest => jxHasNull kv.2 || jxFieldsHaveNull rest

end

/-! ## Signer: `splitSignature` (lines 384-401) -/

/-- Hex value of one character, `none` when the character is not a hex
digit (the case in which `parseInt` would reject it). -/
def hexDigitVal (c : Char) : Option Nat :=
  if '0' ≤ c ∧ c ≤ '9' then some (c.toNat - 48)
  else if 'a' ≤ c ∧ c ≤ 'f' then some (c.toNat - 87)
  else if 'A' ≤ c ∧ c ≤ 'F' then some (c.toNat - 55)
  else none

/-- Accumulating loop of `parseInt(-, 16)`: consume hex digits, stop at
the first invalid character. -/
def parseHexDigits (acc : Nat) : List Char → Nat
  | [] => acc
  | c :: rest =>
      match hexDigitVal c with
      | some w => parseHexDigits (acc * 16 + w) rest
      | none => acc

/-- JS `parseInt(str, 16)`: parses the maximal valid-hex-digit run from
the front, `NaN` (here `none`) when the first character is not valid. -/
def parseHex16 : List Char → Option Nat
  | [] => none
  | c :: rest =>
      match hexDigitVal c with
      | none => none
      | some v => some (parseHexDigits v rest)

/-- `ExchangeSignature` (lines 124-128), with `v` as a `Nat`. -/
structure SigParts where
  r : String
  s : String
  v : Nat
  deriving DecidableEq

/-- The `v` pipeline of `splitSignature` (lines 392-395): add 27 when
below 27, then normalize by parity unless already 27 or 28. -/
def normalizeV (v : Nat) : Nat :=
  let v1 := if v < 27 then v + 27 else v
  if v1 = 27 ∨ v1 = 28 then v1
  else if v1 % 2 = 1 then 27 else 28

/-- `splitSignature` (lines 384-401): drop the `0x`, take the hex char
slices `[0,64)`, `[64,128)`, `[128,130)`, parse `v` (the thrown
`Invalid signature` error is `none`), normalize. -/
def splitSignature (signature : String) : Option SigParts :=
  let cleaned := signature.toList.drop 2
  let rHex := String.mk ('0' :: 'x' :: cleaned.take 64)
  let sHex := String.mk ('0' :: 'x' :: ((cleaned.drop 64).take 64))
  match parseHex16 ((cleaned.drop 128).take 2) with
  | none => none
  | some v => some ⟨normalizeHex rHex, normalizeHex sHex, normalizeV v⟩

/-- `bytesToHex` from the hashing library: two lowercase hex characters
per byte. -/
def hexCharOf (n : Nat) : Char :=
  "0123456789abcdef".toList.getD n '0'

def byteToHex (b : Nat) : List Char :=
  [hexCharOf (b / 16), hexCharOf (b % 16)]

def bytesToHexChars (bytes : List Nat) : List Char :=
  (bytes.map byteToHex).flatten

/-! ## UniverseCache: `getUniverse` (lines 279-303) -/

def CACHE_TTL_MS : Nat := 5 * 60 * 1000

/-- The module-level `metaCache` map, as an association list keyed by the
string `` `${environment}:${baseUrl}` ``. -/
abbrev MetaCache := List (String × Nat × List String)

/-- The cache key built at line 284. -/
def mkCacheKey (environment baseUrl : String) : String :=
  environment ++ ":" ++ baseUrl

/-- `metaCache.get`. -/
def cacheLookup (c : MetaCache) (key : String) : Option (Nat × List String) :=
  (c.find? (fun e => e.1 == key)).map (·.2)

/-- `metaCache.set`: replace the entry for `key`. -/
def cacheInsert (c : MetaCache) (key : String) (now : Nat) (u : List String) : MetaCache :=
  (key, now, u) :: c.filter (fun e => e.1 != key)

/-- One call of `getUniverse` (lines 279-303).  `now` is `Date.now()`;
`fetched` is the universe the `/info` endpoint would return if queried.
Returns the resolved universe, the cache after the call, and whether a
metadata fetch was issued.  JS `now - fetchedAt` on the (monotone) clock
matches truncated `Nat` subtraction. -/
def getUniverseStep (c : MetaCache) (key : String) (now : Nat) (fetched : List String) :
    List String × MetaCache × Bool :=
  match cacheLookup c key with
  | some (fetchedAt, u) =>
      if now - fetchedAt < CACHE_TTL_MS then (u, c, false)
      else (fetched, cacheInsert c key now fetched, true)
  | none => (fetched, cacheInsert c key now fetched, true)

/-- A sequence of `getUniverse` calls for one key at the given times,
counting how many issued a fetch. -/
def runResolutions (c : MetaCache) (key : String) (times : List Nat) (fetched : List String) :
    MetaCache × Nat :=
  times.foldl
    (fun acc now =>
      let r := getUniverseStep acc.1 key now fetched
      (r.2.1, acc.2 + (if r.2.2 then 1 else 0)))
    (c, 0)

/-! ## ResponseValidator (lines 254-271) -/

/-- `HyperliquidOrderStatus` (lines 67-70). -/
inductive OrderStatus
  | resting (oid : Nat) (cloid : Option String)
  | filled (totalSz avgPx : String) (oid : Nat) (cloid : Option String)
  | error (msg : String)
  deriving DecidableEq

/-- `"error" in entry` (line 265). -/
def isErrorStatus : OrderStatus → Bool
  | .error _ => true
  | _ => false

/-- `entry.error` on a narrowed entry (line 267). -/
def statusErrorMsg : OrderStatus → String
  | .error m => m
  | _ => ""

/-- The parsed response body; `statuses` is optional to model the
defensive `json.response?.data?.statuses ?? []` chain (line 264). -/
structure OrderResponseJson where
  status : String
  statuses : Option (List OrderStatus)
  deriving DecidableEq

/-- `HyperliquidApiError`: a message plus the raw response (line 82-90). -/
structure HLApiError where
  message : String
  response : OrderResponseJson
  deriving DecidableEq

/-- The response-interpretation tail of `placeHyperliquidOrder`
(lines 260-271), after transport succeeded and JSON parsed: non-`ok`
status throws, then any error outcome in the positional sequence throws a
single aggregated `HyperliquidApiError` (the JS `message ||` fallback
fires exactly when the joined string is empty), else the response is
returned. -/
def validateOrderResponse (json : OrderResponseJson) : Except HLApiError OrderResponseJson :=
  if json.status ≠ "ok" then
    .error ⟨"Hyperliquid API returned an error status.", json⟩
  else
    let statuses := json.statuses.getD []
    let errorStatuses := statuses.filter isErrorStatus
    if errorStatuses.isEmpty then .ok json
    else
      let message := String.intercalate ", " (errorStatuses.map statusErrorMsg)
      .error ⟨if message = "" then "Hyperliquid rejected the order." else message, json⟩

/-! ## HashChain: Keccak-256 and `createL1ActionHash` (lines 403-430)

`keccak_256` comes from the `@noble/hashes` dependency; it is the
standard (pre-NIST-padding) Keccak-256, embedded here in full: 64-bit
lanes are `Nat`s kept below `2 ^ 64`, the state is the row-major list of
the 25 lanes, rate 136 bytes, domain/padding byte `0x01` with final bit
`0x80`, 32-byte squeeze. -/

def mask64 : Nat := 2 ^ 64 - 1

/-- 64-bit left rotation. -/
def rotl64 (x n : Nat) : Nat :=
  ((x <<< n) ||| (x >>> (64 - n))) &&& mask64

/-- Lane `(x, y)` of a 5x5 state stored row-major (`index = x + 5 y`). -/
def getLane (s : List Nat) (x y : Nat) : Nat :=
  s.getD (x % 5 + 5 * (y % 5)) 0

/-- Build a state from a function of the (column, row) coordinates. -/
def buildState (f : Nat → Nat → Nat) : List Nat :=
  (List.range 25).map (fun i => f (i % 5) (i / 5))

/-- Keccak theta step. -/
def keccakTheta (s : List Nat) : List Nat :=
  let col := fun x =>
    getLane s x 0 ^^^ getLane s x 1 ^^^ getLane s x 2 ^^^ getLane s x 3 ^^^ getLane s x 4
  buildState (fun x y => getLane s x y ^^^ col ((x + 4) % 5) ^^^ rotl64 (col ((x + 1) % 5)) 1)

/-- Rotation offsets, row-major (`index = x + 5 y`), generated by the
standard recurrence: starting from lane (1,0), step `t` writes
`(t+1)(t+2)/2 mod 64` at the current lane and moves to `(y, 2x+3y)`. -/
def rhoOffsets : List Nat :=
  ((List.range 24).foldl
    (fun st t =>
      ((st.1.2, (2 * st.1.1 + 3 * st.1.2) % 5),
       st.2.set (st.1.1 + 5 * st.1.2) ((t + 1) * (t + 2) / 2 % 64)))
    ((1, 0), List.replicate 25 0)).2

/-- Combined rho and pi steps: `B[y][2x+3y] = rotl(A[x][y], r[x][y])`,
written through the inverse index map. -/
def keccakRhoPi (s : List Nat) : List Nat :=
  buildState (fun x y =>
    let sx := (x + 3 * y) % 5
    let sy := x
    rotl64 (getLane s sx sy) (rhoOffsets.getD (sx % 5 + 5 * (sy % 5)) 0))

/-- Keccak chi step. -/
def keccakChi (s : List Nat) : List Nat :=
  buildState (fun x y =>
    getLane s x y ^^^ ((getLane s (x + 1) y ^^^ mask64) &&& getLane s (x + 2) y))

/-- One step of the degree-8 LFSR (polynomial x^8 + x^6 + x^5 + x^4 + 1)
that generates the round-constant bit sequence. -/
def lfsrStep (r : Nat) : Nat :=
  if r &&& 0x80 ≠ 0 then ((r <<< 1) ^^^ 0x71) &&& 0xff else (r <<< 1) &&& 0xff

/-- Bit `t` of the round-constant sequence. -/
def rcBit (t : Nat) : Nat :=
  (lfsrStep^[t] 1) &&& 1

/-- Round constant of round `i`: bit `rc(j + 7 i)` at position `2^j - 1`. -/
def keccakRCAt (i : Nat) : Nat :=
  (List.range 7).foldl (fun acc j => acc ||| (rcBit (j + 7 * i) <<< (2 ^ j - 1))) 0

/-- The 24 round constants. -/
def keccakRC : List Nat :=
  (List.range 24).map keccakRCAt

/-- One Keccak-f round. -/
def keccakRound (s : List Nat) (rc : Nat) : List Nat :=
  let s1 := keccakChi (keccakRhoPi (keccakTheta s))
  buildState (fun x y => if x = 0 ∧ y = 0 then getLane s1 0 0 ^^^ rc else getLane s1 x y)

/-- The Keccak-f[1600] permutation: 24 rounds. -/
def keccakF (s : List Nat) : List Nat :=
  keccakRC.foldl keccakRound s

/-- Keccak multi-rate padding for rate 136 with domain byte `0x01`. -/
def keccakPad (msg : List Nat) : List Nat :=
  let padLen := 136 - msg.length % 136
  if padLen = 1 then msg ++ [0x81]
  else msg ++ 0x01 :: List.replicate (padLen - 2) 0 ++ [0x80]

/-- Little-endian 64-bit lane from 8 bytes of a block. -/
def laneOfBytes (block : List Nat) (i : Nat) : Nat :=
  (List.range 8).foldl (fun acc j => acc + block.getD (8 * i + j) 0 <<< (8 * j)) 0

/-- Absorb one 136-byte block: XOR its 17 lanes into the state, permute. -/
def keccakAbsorbBlock (s : List Nat) (block : List Nat) : List Nat :=
  keccakF ((List.range 25).map
    (fun i => if i < 17 then s.getD i 0 ^^^ laneOfBytes block i else s.getD i 0))

/-- Keccak-256 of a byte sequence: pad, absorb every 136-byte block into
the all-zero state, squeeze the first 32 bytes (lanes 0-3, little-endian). -/
def keccak256 (msg : List Nat) : List Nat :=
  let padded := keccakPad msg
  let blocks := (List.range (padded.length / 136)).map
    (fun b => (padded.drop (136 * b)).take 136)
  let s := blocks.foldl keccakAbsorbBlock (List.replicate 25 0)
  (List.range 32).map (fun i => (s.getD (i / 8) 0 >>> (8 * (i % 8))) &&& 255)

/-- `hexToBytes` from the hashing library: consecutive pairs of hex
characters to bytes (inputs of the source are well-formed even-length
hex strings). -/
def hexToBytes : List Char → List Nat
  | c1 :: c2 :: rest => ((hexDigitVal c1).getD 0 * 16 + (hexDigitVal c2).getD 0) :: hexToBytes rest
  | _ => []

/-- `toUint64Bytes` (lines 426-430): the value as 8 big-endian bytes;
`DataView.setBigUint64` wraps modulo `2 ^ 64`. -/
def toUint64Bytes (value : Nat) : List Nat :=
  (List.range 8).map (fun i => (value % 2 ^ 64) >>> (8 * (7 - i)) &&& 255)

/-- `createL1ActionHash` (lines 403-430).  The msgpack encoding of the
action (`encodeMsgpack(action, { ignoreUndefined: true })`) enters as the
byte sequence `actionBytes`, left abstract; the vault address is the
source's hex string with leading `0x`, the expiry its optional timestamp. -/
def createL1ActionHash (actionBytes : List Nat) (nonce : Nat)
    (vaultAddress : Option String) (expiresAfter : Option Nat) : List Nat :=
  let nonceBytes := toUint64Bytes nonce
  let vaultMarker := match vaultAddress with | some _ => [1] | none => [0]
  let vaultBytes := match vaultAddress with
    | some a => hexToBytes (a.toList.drop 2)
    | none => []
  let expiresMarker := match expiresAfter with | some _ => [0] | none => []
  let expiresBytes := match expiresAfter with | some e => toUint64Bytes e | none => []
  keccak256 (actionBytes ++ nonceBytes ++ vaultMarker ++ vaultBytes ++ expiresMarker ++ expiresBytes)

/-! ## Helper lemmas -/

theorem takeWhile_append_stop (p : Char → Bool) (xs : List Char) (y : Char) (ys : List Char)
    (hxs : ∀ x ∈ xs, p x = true) (hy : p y = false) :
    (xs ++ y :: ys).takeWhile p = xs := by
  induction xs with
  | nil => simp [List.takeWhile_cons, hy]
  | cons a rest ih =>
      have ha : p a = true := hxs a (by simp)
      simp [List.takeWhile_cons, ha, ih (fun x hx => hxs x (by simp [hx]))]

theorem takeWhile_all (p : Char → Bool) (xs : List Char) (hxs : ∀ x ∈ xs, p x = true) :
    xs.takeWhile p = xs := by
  induction xs with
  | nil => rfl
  | cons a rest ih =>
      have ha : p a = true := hxs a (by simp)
      simp [List.takeWhile_cons, ha, ih (fun x hx => hxs x (by simp [hx]))]

theorem digitsVal_foldl_acc (l : List Char) :
    ∀ acc : Nat, l.foldl (fun a c => a * 10 + (c.toNat - 48)) acc
      = acc * 10 ^ l.length + digitsVal l := by
  induction l with
  | nil => intro acc; simp [digitsVal]
  | cons c rest ih =>
      intro acc
      have h1 := ih (acc * 10 + (c.toNat - 48))
      have h2 := ih (0 * 10 + (c.toNat - 48))
      simp only [digitsVal, List.foldl_cons, List.length_cons] at h1 h2 ⊢
      rw [h1, h2]
      ring

theorem digitsVal_append (a b : List Char) :
    digitsVal (a ++ b) = digitsVal a * 10 ^ b.length + digitsVal b := by
  unfold digitsVal
  rw [List.foldl_append]
  exact digitsVal_foldl_acc b _

theorem digitsVal_replicate_zero (k : Nat) (l : List Char) :
    digitsVal (List.replicate k '0' ++ l) = digitsVal l := by
  induction k with
  | zero => simp
  | succ n ih =>
      rw [List.replicate_succ, List.cons_append]
      show List.foldl _ (0 * 10 + ('0'.toNat - 48)) _ = _
      simpa [digitsVal] using ih

theorem head_drop_takeWhile_zero (m t : List Char)
    (hdot : ∀ c ∈ m, c ≠ '.') (hne : ∃ c ∈ m, c ≠ '0') :
    ∃ c, (((m ++ t).drop ((m ++ t).takeWhile (· = '0')).length).head? = some c) ∧ c ≠ '.' := by
  induction m with
  | nil => simp at hne
  | cons a m2 ih =>
      by_cases ha : a = '0'
      · subst ha
        have hne2 : ∃ c ∈ m2, c ≠ '0' := by
          obtain ⟨c, hc, hc0⟩ := hne
          rcases List.mem_cons.mp hc with h | h
          · exact absurd h hc0
          · exact ⟨c, h, hc0⟩
        have := ih (fun c hc => hdot c (List.mem_cons_of_mem _ hc)) hne2
        simpa [List.takeWhile_cons] using this
      · refine ⟨a, ?_, hdot a (List.mem_cons_self _ _)⟩
        simp [List.takeWhile_cons, ha]

theorem stripDotZeros_id (pre m : List Char)
    (hdot : ∀ c ∈ m, c ≠ '.') (hne : ∃ c ∈ m, c ≠ '0') :
    stripDotZeros (pre ++ m) = pre ++ m := by
  unfold stripDotZeros
  have hrev : (pre ++ m).reverse = m.reverse ++ pre.reverse := by
    simp
  rw [hrev]
  obtain ⟨c, hc, hcdot⟩ := head_drop_takeWhile_zero m.reverse pre.reverse
    (fun x hx => hdot x (List.mem_reverse.mp hx))
    (by obtain ⟨c, hc, h0⟩ := hne; exact ⟨c, List.mem_reverse.mpr hc, h0⟩)
  rw [if_neg]
  rintro ⟨-, hhead⟩
  rw [hc] at hhead
  exact hcdot (by injection hhead)

theorem hexToBytes_length (l : List Char) : (hexToBytes l).length = l.length / 2 := by
  induction l using hexToBytes.induct with
  | case1 c1 c2 rest ih =>
      show (hexToBytes (c1 :: c2 :: rest)).length = _
      rw [hexToBytes]
      simp only [List.length_cons, ih]
      omega
  | case2 l h =>
      rcases l with - | ⟨c, - | ⟨c2, rest⟩⟩
      · simp [hexToBytes]
      · simp [hexToBytes]
      · exact absurd rfl (h c c2 rest)

theorem toUint64Bytes_length (value : Nat) : (toUint64Bytes value).length = 8 := by
  simp [toUint64Bytes]

theorem keccak256_length (msg : List Nat) : (keccak256 msg).length = 32 := by
  simp [keccak256]

theorem bytesToHexChars_cons (b : Nat) (bs : List Nat) :
    bytesToHexChars (b :: bs) = byteToHex b ++ bytesToHexChars bs := by
  simp [bytesToHexChars]

theorem bytesToHexChars_take (bs : List Nat) :
    ∀ k, (bytesToHexChars bs).take (2 * k) = bytesToHexChars (bs.take k) := by
  induction bs with
  | nil => intro k; simp [bytesToHexChars]
  | cons b rest ih =>
      intro k
      cases k with
      | zero => simp [bytesToHexChars]
      | succ n =>
          rw [bytesToHexChars_cons, List.take_succ_cons, bytesToHexChars_cons, byteToHex]
          have : 2 * (n + 1) = (2 * n) + 1 + 1 := by omega
          rw [this]
          simp [List.take_succ_cons, ih n]

theorem bytesToHexChars_drop (bs : List Nat) :
    ∀ k, (bytesToHexChars bs).drop (2 * k) = bytesToHexChars (bs.drop k) := by
  induction bs with
  | nil => intro k; simp [bytesToHexChars]
  | cons b rest ih =>
      intro k
      cases k with
      | zero => simp
      | succ n =>
          rw [bytesToHexChars_cons, List.drop_succ_cons, byteToHex]
          have : 2 * (n + 1) = (2 * n) + 1 + 1 := by omega
          rw [this]
          simp [List.drop_succ_cons, ih n]

theorem hexDigitVal_hexCharOf : ∀ n, n < 16 → hexDigitVal (hexCharOf n) = some n := by
  decide

theorem parseHex16_byteToHex (b : Nat) (hb : b < 256) :
    parseHex16 (byteToHex b) = some b := by
  have h1 : b / 16 < 16 := by omega
  have h2 : b % 16 < 16 := by omega
  simp [byteToHex, parseHex16, parseHexDigits, hexDigitVal_hexCharOf _ h1,
    hexDigitVal_hexCharOf _ h2]
  omega

theorem normalizeV_mem (raw : Nat) : normalizeV raw = 27 ∨ normalizeV raw = 28 := by
  unfold normalizeV
  dsimp only
  split_ifs <;> omega

theorem isExpChar_eq_false_of_isDigit (c : Char) (h : c.isDigit = true) :
    isExpChar c = false := by
  have h2 : '0' ≤ c ∧ c ≤ '9' := by simpa [Char.isDigit] using h
  simp only [isExpChar, decide_eq_false_iff_not]
  rintro (rfl | rfl)
  · exact absurd h2.2 (by decide)
  · exact absurd h2.2 (by decide)

theorem ne_dot_of_isDigit (c : Char) (h : c.isDigit = true) : c ≠ '.' := by
  rintro rfl
  exact absurd h (by decide)

theorem ne_zero_or_exists_of_isDigit {d : Char} {frac : List Char}
    (hnz : d ≠ '0' ∨ ∃ c ∈ frac, c ≠ '0') :
    ∃ c ∈ d :: frac, c ≠ '0' := by
  rcases hnz with h | ⟨c, hc, h0⟩
  · exact ⟨d, List.mem_cons_self _ _, h⟩
  · exact ⟨c, List.mem_cons_of_mem _ hc, h0⟩

/-- Behaviour of the codec's number branch on a well-formed scientific
rendering `mantissa e exponentPart`: the split recovers exactly the
mantissa and the exponent text. -/
theorem toApiDecimalNumChars_sci (mant expChars : List Char)
    (hm : ∀ c ∈ mant, isExpChar c = false)
    (hE : ∀ c ∈ expChars, isExpChar c = false) :
    toApiDecimalNumChars (mant ++ 'e' :: expChars)
      = (if 0 ≤ parseSignedInt expChars then
          (mant.takeWhile (· ≠ '.'))
            ++ padEndZero ((mant.drop ((mant.takeWhile (· ≠ '.')).length + 1)).takeWhile (· ≠ '.'))
                ((parseSignedInt expChars).toNat
                  + ((mant.drop ((mant.takeWhile (· ≠ '.')).length + 1)).takeWhile (· ≠ '.')).length)
        else
          stripDotZeros ('0' :: '.' ::
            (List.replicate ((parseSignedInt expChars).natAbs - 1) '0'
              ++ mant.takeWhile (· ≠ '.')
              ++ (mant.drop ((mant.takeWhile (· ≠ '.')).length + 1)).takeWhile (· ≠ '.')))) := by
  have hany : (mant ++ 'e' :: expChars).any isExpChar = true :=
    List.any_eq_true.mpr ⟨'e', by simp, by decide⟩
  have hmant : (mant ++ 'e' :: expChars).takeWhile (fun c => !isExpChar c) = mant :=
    takeWhile_append_stop _ mant 'e' expChars (fun x hx => by simp [hm x hx]) (by decide)
  have hafter : (mant ++ 'e' :: expChars).drop (mant.length + 1) = expChars := by
    have h1 : mant ++ 'e' :: expChars = (mant ++ ['e']) ++ expChars := by simp
    have h2 : (mant ++ ['e']).length = mant.length + 1 := by simp
    rw [h1, ← h2, List.drop_left]
  have hexpPart : expChars.takeWhile (fun c => !isExpChar c) = expChars :=
    takeWhile_all _ expChars (fun x hx => by simp [hE x hx])
  unfold toApiDecimalNumChars
  rw [if_pos hany]
  dsimp only
  rw [hmant, hafter, hexpPart]

theorem cacheLookup_insert (c : MetaCache) (key : String) (now : Nat) (u : List String) :
    cacheLookup (cacheInsert c key now u) key = some (now, u) := by
  simp [cacheLookup, cacheInsert, List.find?]

theorem getUniverseStep_hit (c : MetaCache) (key : String) (t0 now : Nat)
    (u f : List String) (hcache : cacheLookup c key = some (t0, u))
    (hfresh : now - t0 < CACHE_TTL_MS) :
    getUniverseStep c key now f = (u, c, false) := by
  simp [getUniverseStep, hcache, hfresh]

theorem foldl_resolutions_hit (key : String) (f u : List String) (t0 : Nat) :
    ∀ (times : List Nat) (c : MetaCache) (n : Nat),
      cacheLookup c key = some (t0, u) →
      (∀ t ∈ times, t - t0 < CACHE_TTL_MS) →
      times.foldl
        (fun acc now =>
          let r := getUniverseStep acc.1 key now f
          (r.2.1, acc.2 + (if r.2.2 then 1 else 0)))
        (c, n) = (c, n) := by
  intro times
  induction times with
  | nil => intro c n _ _; rfl
  | cons t rest ih =>
      intro c n hcache hwin
      rw [List.foldl_cons]
      have hstep := getUniverseStep_hit c key t0 t u f hcache (hwin t (by simp))
      rw [hstep]
      simpa using ih c n hcache (fun s hs => hwin s (by simp [hs]))

/-! ## Claim theorems -/

/-- C1: for every order action (entering as its canonical msgpack byte
sequence), nonce, optional vault address and optional expiry, the hash
preimage is exactly the concatenation of the canonical action bytes, the
nonce as 8 big-endian bytes, one marker byte that is 1 when a vault
address is present and 0 otherwise, the vault address's 20 raw bytes when
present (40 hex digits decode to 20 bytes), one marker byte present iff
an expiry is given whose value is the fixed constant 0 (not a
boolean-coded flag), and the expiry as 8 big-endian bytes when present;
the connection id is the 32-byte Keccak-256 hash of this concatenation. -/
theorem createL1ActionHash_preimage_spec (actionBytes : List Nat) (nonce : Nat)
    (vaultAddress : Option String) (expiresAfter : Option Nat) :
    createL1ActionHash actionBytes nonce vaultAddress expiresAfter
      = keccak256 (actionBytes
          ++ toUint64Bytes nonce
          ++ (match vaultAddress with
              | some a => 1 :: hexToBytes (a.toList.drop 2)
              | none => [0])
          ++ (match expiresAfter with
              | some e => 0 :: toUint64Bytes e
              | none => []))
    ∧ (toUint64Bytes nonce).length = 8
    ∧ (∀ hexStr : List Char, (hexToBytes hexStr).length = hexStr.length / 2)
    ∧ (createL1ActionHash actionBytes nonce vaultAddress expiresAfter).length = 32 := by
  refine ⟨?_, toUint64Bytes_length nonce, hexToBytes_length, keccak256_length _⟩
  unfold createL1ActionHash
  cases vaultAddress <;> cases expiresAfter <;> simp

/-- C10: an order intent carrying neither a trigger nor a time-in-force
encodes with the limit type field and time-in-force `Ioc`
(immediate-or-cancel), not good-till-cancel. -/
theorem prepareOrder_default_tif (symbol side : String) (price sz : NumValue)
    (reduceOnly : Option Bool) (clientId : Option String) (assetIndex : Nat) :
    (prepareOrder ⟨symbol, side, price, sz, none, reduceOnly, clientId, none⟩ assetIndex).t
      = .limit .Ioc := rfl

/-- C5: the encoded order record's `t` field is exactly one of a limit
specification (carrying the time-in-force) or a trigger specification
(carrying the is-market flag, trigger price and tp/sl tag), never both —
its serialized object has the single key `trigger` when the intent has a
trigger and the single key `limit` otherwise; the client-id field `c` is
present iff the intent provides one; and no field of the serialized
record is ever the null value (absent optionals are omitted entirely). -/
theorem orderFields_spec (intent : OrderIntent) (assetIndex : Nat) :
    (orderFields (prepareOrder intent assetIndex)).lookup "t"
        = some (typeFieldJson (prepareOrder intent assetIndex).t)
    ∧ isTriggerField (prepareOrder intent assetIndex).t = intent.trigger.isSome
    ∧ jxTopKeys (typeFieldJson (prepareOrder intent assetIndex).t)
        = (if intent.trigger.isSome then ["trigger"] else ["limit"])
    ∧ ((orderFields (prepareOrder intent assetIndex)).map Prod.fst).contains "c"
        = intent.clientId.isSome
    ∧ jxFieldsHaveNull (orderFields (prepareOrder intent assetIndex)) = false := by
  rcases intent with ⟨sym, side, p, sz, tif, ro, cid, trig⟩
  cases trig <;> cases cid <;>
    simp [prepareOrder, orderFields, typeFieldJson, isTriggerField, jxTopKeys,
      jxHasNull, jxFieldsHaveNull, List.lookup]

/-- C3: for every 65-byte signature (arriving as its `0x` hex string),
the signer splits it into the 32-byte r slice, the 32-byte s slice and
the 1-byte v, and normalizes v by adding 27 when below 27 and then
mapping by parity (odd to 27, even to 28) unless already 27 or 28 — so
the returned v is always 27 or 28, in particular for raw recovery bytes
0, 1, 27, 28, 35 and 36. -/
theorem splitSignature_spec (bytes : List Nat) (h65 : bytes.length = 65)
    (hb : ∀ b ∈ bytes, b < 256) :
    splitSignature (String.mk ('0' :: 'x' :: bytesToHexChars bytes))
      = some ⟨normalizeHex (String.mk ('0' :: 'x' :: bytesToHexChars (bytes.take 32))),
              normalizeHex (String.mk ('0' :: 'x' :: bytesToHexChars ((bytes.drop 32).take 32))),
              normalizeV (bytes.getD 64 0)⟩
    ∧ (∀ raw : Nat, normalizeV raw = 27 ∨ normalizeV raw = 28)
    ∧ normalizeV 0 = 27 ∧ normalizeV 1 = 28 ∧ normalizeV 27 = 27
    ∧ normalizeV 28 = 28 ∧ normalizeV 35 = 27 ∧ normalizeV 36 = 28 := by
  refine ⟨?_, normalizeV_mem, by decide, by decide, by decide, by decide, by decide, by decide⟩
  obtain ⟨b, hb64⟩ : ∃ b, bytes.drop 64 = [b] := by
    apply List.length_eq_one.mp
    rw [List.length_drop, h65]
  have hbmem : b < 256 := by
    refine hb b (List.drop_subset 64 bytes ?_)
    rw [hb64]
    exact List.mem_singleton_self b
  have hgetD : bytes.getD 64 0 = b := by
    have h0 : bytes[64]? = some b := by
      have := List.getElem?_drop bytes 64 0
      rw [hb64] at this
      simpa using this.symm
    simp [List.getD, h0]
  have htake : (bytesToHexChars bytes).take 64 = bytesToHexChars (bytes.take 32) := by
    simpa using bytesToHexChars_take bytes 32
  have hdroptake : ((bytesToHexChars bytes).drop 64).take 64
      = bytesToHexChars ((bytes.drop 32).take 32) := by
    have h1 := bytesToHexChars_drop bytes 32
    have h2 := bytesToHexChars_take (bytes.drop 32) 32
    simp only [Nat.reduceMul] at h1 h2
    rw [h1, h2]
  have hvchars : ((bytesToHexChars bytes).drop 128).take 2 = byteToHex b := by
    have h1 := bytesToHexChars_drop bytes 64
    simp only [Nat.reduceMul] at h1
    rw [h1, hb64]
    simp [bytesToHexChars, byteToHex]
  simp only [splitSignature]
  have hclean : (String.mk ('0' :: 'x' :: bytesToHexChars bytes)).toList.drop 2
      = bytesToHexChars bytes := rfl
  rw [hclean, htake, hdroptake, hvchars, parseHex16_byteToHex b hbmem, hgetD]

/-- Witness for C3 at a concrete 65-byte signature. -/
theorem splitSignature_spec_witness :
    (List.replicate 64 17 ++ [35] : List Nat).length = 65
    ∧ splitSignature (String.mk ('0' :: 'x' :: bytesToHexChars (List.replicate 64 17 ++ [35])))
      = some ⟨normalizeHex (String.mk ('0' :: 'x' ::
                bytesToHexChars ((List.replicate 64 17 ++ [35] : List Nat).take 32))),
              normalizeHex (String.mk ('0' :: 'x' ::
                bytesToHexChars (((List.replicate 64 17 ++ [35] : List Nat).drop 32).take 32))),
              normalizeV ((List.replicate 64 17 ++ [35] : List Nat).getD 64 0)⟩ :=
  ⟨by decide,
   (splitSignature_spec (List.replicate 64 17 ++ [35]) (by decide) (by decide)).1⟩

/-- C6: a `getUniverse` call fetches iff the key has no cached entry or
the entry's age is at least the 5-minute TTL; any number of resolutions
against a fresh entry issue no fetch (so N resolutions beginning with a
miss issue exactly one); and a call at age ≥ TTL fetches again and
replaces the cached (timestamp, universe) pair for the key. -/
theorem getUniverse_cache_spec (c : MetaCache) (environment baseUrl : String)
    (t0 : Nat) (u f : List String) (times : List Nat)
    (hcache : cacheLookup c (mkCacheKey environment baseUrl) = some (t0, u))
    (hwin : ∀ t ∈ times, t - t0 < CACHE_TTL_MS) :
    (∀ c2 k2 n2 f2, (getUniverseStep c2 k2 n2 f2).2.2
        = match cacheLookup c2 k2 with
          | none => true
          | some (ts, _) => decide (CACHE_TTL_MS ≤ n2 - ts))
    ∧ runResolutions c (mkCacheKey environment baseUrl) times f = (c, 0)
    ∧ (∀ (c3 : MetaCache) (n0 : Nat) (rest : List Nat),
        cacheLookup c3 (mkCacheKey environment baseUrl) = none →
        (∀ s ∈ rest, s - n0 < CACHE_TTL_MS) →
        (runResolutions c3 (mkCacheKey environment baseUrl) (n0 :: rest) f).2 = 1)
    ∧ (∀ n2, CACHE_TTL_MS ≤ n2 - t0 →
        (getUniverseStep c (mkCacheKey environment baseUrl) n2 f).2.2 = true
        ∧ cacheLookup (getUniverseStep c (mkCacheKey environment baseUrl) n2 f).2.1
            (mkCacheKey environment baseUrl) = some (n2, f)) := by
  set key := mkCacheKey environment baseUrl
  refine ⟨?_, ?_, ?_, ?_⟩
  · intro c2 k2 n2 f2
    unfold getUniverseStep
    rcases h : cacheLookup c2 k2 with - | ⟨ts, u2⟩
    · simp
    · by_cases hlt : n2 - ts < CACHE_TTL_MS
      · simp [hlt]
      · simp [hlt]
        omega
  · exact foldl_resolutions_hit key f u t0 times c 0 hcache hwin
  · intro c3 n0 rest hmiss hrest
    unfold runResolutions
    rw [List.foldl_cons]
    have hstep : getUniverseStep c3 key n0 f = (f, cacheInsert c3 key n0 f, true) := by
      simp [getUniverseStep, hmiss]
    rw [hstep]
    have := foldl_resolutions_hit key f f n0 rest (cacheInsert c3 key n0 f) 1
      (cacheLookup_insert c3 key n0 f) hrest
    simpa using congrArg Prod.snd this
  · intro n2 hstale
    have hnot : ¬ (n2 - t0 < CACHE_TTL_MS) := by omega
    constructor <;> simp [getUniverseStep, hcache, hnot, cacheLookup_insert]

/-- Witness for C6: one cached entry, two fresh resolutions with no
fetch, then a stale resolution that fetches and replaces the entry. -/
theorem getUniverse_cache_spec_witness :
    cacheLookup [(mkCacheKey "mainnet" "https://api.hyperliquid.xyz", 1000, ["BTC"])]
        (mkCacheKey "mainnet" "https://api.hyperliquid.xyz") = some (1000, ["BTC"])
    ∧ runResolutions [(mkCacheKey "mainnet" "https://api.hyperliquid.xyz", 1000, ["BTC"])]
        (mkCacheKey "mainnet" "https://api.hyperliquid.xyz") [1001, 300999] ["BTC", "ETH"]
        = ([(mkCacheKey "mainnet" "https://api.hyperliquid.xyz", 1000, ["BTC"])], 0)
    ∧ (getUniverseStep [(mkCacheKey "mainnet" "https://api.hyperliquid.xyz", 1000, ["BTC"])]
        (mkCacheKey "mainnet" "https://api.hyperliquid.xyz") 301000 ["BTC", "ETH"]).2.2 = true
    ∧ cacheLookup (getUniverseStep
          [(mkCacheKey "mainnet" "https://api.hyperliquid.xyz", 1000, ["BTC"])]
          (mkCacheKey "mainnet" "https://api.hyperliquid.xyz") 301000 ["BTC", "ETH"]).2.1
        (mkCacheKey "mainnet" "https://api.hyperliquid.xyz") = some (301000, ["BTC", "ETH"]) :=
  ⟨by decide,
   (getUniverse_cache_spec _ "mainnet" "https://api.hyperliquid.xyz" 1000 ["BTC"]
      ["BTC", "ETH"] [1001, 300999] (by decide) (by decide)).2.1,
   ((getUniverse_cache_spec _ "mainnet" "https://api.hyperliquid.xyz" 1000 ["BTC"]
      ["BTC", "ETH"] [1001, 300999] (by decide) (by decide)).2.2.2 301000 (by decide)).1,
   ((getUniverse_cache_spec _ "mainnet" "https://api.hyperliquid.xyz" 1000 ["BTC"]
      ["BTC", "ETH"] [1001, 300999] (by decide) (by decide)).2.2.2 301000 (by decide)).2⟩

/-- C7 counterexample: an ok-status response whose only outcome is an
error with the empty message.  The messages joined by `", "` give the
empty string, yet the raised error carries the fixed fallback message
`"Hyperliquid rejected the order."` — not the joined messages — because
of the JS `message || fallback` falsiness check.  So the claim that the
`ApiError` message always equals the joined error messages is false. -/
theorem validateOrderResponse_counterexample :
    validateOrderResponse ⟨"ok", some [.error ""]⟩
      = .error ⟨"Hyperliquid rejected the order.", ⟨"ok", some [.error ""]⟩⟩
    ∧ String.intercalate ", "
        ((([OrderStatus.error ""].filter isErrorStatus).map statusErrorMsg)) = ""
    ∧ "Hyperliquid rejected the order." ≠ "" := by
  refine ⟨rfl, rfl, by decide⟩

/-- C7 (amended): for every ok-status response whose positional outcome
sequence contains at least one error outcome, the validator raises a
single `HyperliquidApiError` carrying the full raw response, whose
message is all error messages joined by `", "` when that joined string is
nonempty, and the fixed fallback `"Hyperliquid rejected the order."`
otherwise; in particular, a response with one outcome
`error: "Insufficient margin"` and one resting outcome yields an error
whose message is exactly `"Insufficient margin"` and whose raw response
equals the input. -/
theorem validateOrderResponse_amended (json : OrderResponseJson)
    (hok : json.status = "ok")
    (herr : (json.statuses.getD []).filter isErrorStatus ≠ []) :
    validateOrderResponse json
      = .error ⟨(if String.intercalate ", "
                    (((json.statuses.getD []).filter isErrorStatus).map statusErrorMsg) = ""
                 then "Hyperliquid rejected the order."
                 else String.intercalate ", "
                    (((json.statuses.getD []).filter isErrorStatus).map statusErrorMsg)),
                json⟩
    ∧ validateOrderResponse ⟨"ok", some [.error "Insufficient margin", .resting 77 none]⟩
      = .error ⟨"Insufficient margin",
                ⟨"ok", some [.error "Insufficient margin", .resting 77 none]⟩⟩ := by
  constructor
  · unfold validateOrderResponse
    rw [if_neg (by simp [hok]), if_neg (by simpa [List.isEmpty_iff] using herr)]
  · rfl

/-- Witness for C7's amended theorem at the scenario-B response. -/
theorem validateOrderResponse_amended_witness :
    (⟨"ok", some [.error "Insufficient margin", .resting 77 none]⟩ :
        OrderResponseJson).status = "ok"
    ∧ validateOrderResponse ⟨"ok", some [.error "Insufficient margin", .resting 77 none]⟩
      = .error ⟨"Insufficient margin",
                ⟨"ok", some [.error "Insufficient margin", .resting 77 none]⟩⟩ :=
  ⟨rfl, (validateOrderResponse_amended
      ⟨"ok", some [.error "Insufficient margin", .resting 77 none]⟩ rfl (by decide)).2⟩

/-- C9 counterexample: an intent whose client id is all-zero hex.  The
regex `/^0x0+/` replaces the whole digit run with `0x`, leaving the
nonempty — hence truthy — string `"0x"`, so the `|| "0x0"` fallback never
fires for an input with leading `0x`: the encoded `c` is `"0x"`, not the
`"0x0"` the claim predicts. -/
theorem normalizeHex_counterexample :
    (prepareOrder ⟨"BTC-USD", "buy", .str "1", .str "1", none, none,
        some "0x00000000000000000000000000000000", none⟩ 0).c = some "0x"
    ∧ ("0x" : String) ≠ "0x0" := by
  refine ⟨rfl, by decide⟩

/-- C9 (amended): for every intent providing a client id, the encoded
`c` field is `normalizeHex` of it — the id lowercased with every leading
zero hex digit after the `0x` prefix removed — yielding the bare `"0x"`
(not `"0x0"`) when all digits are zero; in general, for any suffix after
`0x`, the output is `0x` followed by the lowercased suffix minus its
leading zeros, so a fixed-width id with leading zero digits is emitted
strictly shorter than its input width. -/
theorem normalizeHex_amended (symbol side : String) (price sz : NumValue)
    (tif : Option HLTif) (reduceOnly : Option Bool) (trigger : Option TriggerOptions)
    (cid : String) (assetIndex : Nat) :
    (prepareOrder ⟨symbol, side, price, sz, tif, reduceOnly, some cid, trigger⟩ assetIndex).c
      = some (normalizeHex cid)
    ∧ (∀ suffix : String, normalizeHex ("0x" ++ suffix)
        = "0x" ++ String.mk ((suffix.toList.map Char.toLower).dropWhile (· = '0'))) := by
  constructor
  · cases trigger <;> rfl
  · intro suffix
    have hlower : (toLowerStr ("0x" ++ suffix)).toList
        = '0' :: 'x' :: (suffix.toList.map Char.toLower) := by
      simp [toLowerStr, String.toList]
    unfold normalizeHex
    dsimp only
    rw [hlower]
    rcases hsfx : suffix.toList.map Char.toLower with - | ⟨c, rest⟩
    · rfl
    · by_cases hc : c = '0'
      · subst hc
        have hne : String.mk ('0' :: 'x' ::
            List.dropWhile (fun x => x = '0') ('0' :: rest)) ≠ "" := by
          simp [String.ext_iff, List.dropWhile]
        simp [List.head?, List.dropWhile, hne, String.ext_iff]
      · have hne : String.mk ('0' :: 'x' :: '0' :: rest) ≠ "" := by
          simp [String.ext_iff]
        simp [List.head?, hc, List.dropWhile, String.ext_iff]

/-- C4 counterexample: symbol `" BTC-USD"` against universe `["BTC"]`.
The text before the first `-` is `" BTC"`, which does not match `"BTC"`
even case-insensitively, so by the claim the resolution should fail with
`UnknownAsset`; the code trims whitespace before comparing and resolves
to index 0 instead. -/
theorem resolveAssetIndex_counterexample :
    resolveAssetIndex " BTC-USD" ["BTC"] = some 0
    ∧ upperChars (" BTC-USD".toList.takeWhile (· ≠ '-')) ≠ upperChars "BTC".toList := by
  refine ⟨rfl, by decide⟩

/-- C4 (amended): resolution uses only the whitespace-trimmed text before
the first `-` separator (any suffix after the separator is ignored),
compares it case-insensitively and exactly against the cached asset
names, returns the position of the matching entry in the universe
sequence, and fails with an `UnknownAsset` error iff no entry matches. -/
theorem resolveAssetIndex_amended (base suffix : String) (univ : List String)
    (hbase : '-' ∉ base.toList) :
    resolveAssetIndex (base ++ "-" ++ suffix) univ = resolveAssetIndex base univ
    ∧ (∀ (symbol : String) (u2 : List String),
        resolveAssetIndex symbol u2
          = u2.findIdx? (fun entry => upperChars entry.toList
              == upperChars (trimChars (symbol.toList.takeWhile (· ≠ '-')))))
    ∧ (∀ (symbol : String) (u2 : List String),
        resolveAssetIndex symbol u2 = none ↔
          ∀ entry ∈ u2, upperChars entry.toList
            ≠ upperChars (trimChars (symbol.toList.takeWhile (· ≠ '-')))) := by
  have hall : ∀ x ∈ base.toList, (decide (x ≠ '-')) = true := by
    intro x hx
    simp only [decide_eq_true_eq]
    exact fun h => hbase (h ▸ hx)
  refine ⟨?_, fun symbol u2 => rfl, ?_⟩
  · have hsplit : (base ++ "-" ++ suffix).toList = base.toList ++ '-' :: suffix.toList := by
      simp [String.toList]
    unfold resolveAssetIndex
    rw [hsplit, takeWhile_append_stop _ base.toList '-' suffix.toList hall (by simp),
      takeWhile_all _ base.toList hall]
  · intro symbol u2
    unfold resolveAssetIndex
    rw [List.findIdx?_eq_none_iff]
    constructor
    · intro h entry hmem
      have := h entry hmem
      simpa using this
    · intro h entry hmem
      simpa using h entry hmem

/-- C8 counterexample: the negative float `-1.23e-7` is a finite float
whose default rendering `"-1.23e-7"` uses a negative exponent, but the
codec splits its mantissa into integer part `"-1"` and fraction `"23"`
and emits `"0.000000-123"`: the minus sign lands between the leading
zeros and the digits, so the output is neither `0.` followed by the
correct zeros and the mantissa digits (`"0.000000123"`) nor any valid
rendering of the input value (`"-0.000000123"`). -/
theorem toApiDecimal_negExp_counterexample :
    toApiDecimalNum "-1.23e-7" = "0.000000-123"
    ∧ "0.000000-123".toList.getD 8 ' ' = '-'
    ∧ Char.isDigit '-' = false
    ∧ toApiDecimalNum "-1.23e-7" ≠ "0.000000123"
    ∧ toApiDecimalNum "-1.23e-7" ≠ "-0.000000123" := by
  refine ⟨by decide, by decide, by decide, by decide, by decide⟩

/-- C8 (amended): for every finite non-negative float whose default
rendering uses a negative exponent `-(k+1)` — mantissa `d.frac` or the
dotless `d`, with digit characters — the codec renders it as `0.`
followed by exactly `k` leading zeros and the original mantissa digits
(trailing-zero cleanup is a no-op on such digit strings); the number of
zeros is correct, i.e. the rendered decimal denotes the same value as
the scientific input; in particular the floating input `1.23e-7`
canonicalizes to `"0.000000123"`. -/
theorem toApiDecimal_negExp_amended (d : Char) (frac expChars : List Char) (k : Nat)
    (hd : d.isDigit = true)
    (hfrac : ∀ c ∈ frac, c.isDigit = true)
    (hE : ∀ c ∈ expChars, isExpChar c = false)
    (hexp : parseSignedInt expChars = -((k : Int) + 1))
    (hnz : d ≠ '0' ∨ ∃ c ∈ frac, c ≠ '0') :
    toApiDecimalNumChars ((d :: '.' :: frac) ++ 'e' :: expChars)
      = '0' :: '.' :: (List.replicate k '0' ++ d :: frac)
    ∧ decValue ('0' :: '.' :: (List.replicate k '0' ++ d :: frac))
      = sciVal [d] frac (-((k : Int) + 1))
    ∧ (d ≠ '0' →
        toApiDecimalNumChars ([d] ++ 'e' :: expChars)
          = '0' :: '.' :: (List.replicate k '0' ++ [d])
        ∧ decValue ('0' :: '.' :: (List.replicate k '0' ++ [d]))
          = sciVal [d] [] (-((k : Int) + 1)))
    ∧ toApiDecimalNum "1.23e-7" = "0.000000123" := by
  refine ⟨?_, ?_, ?_, by decide⟩
  · have hm : ∀ c ∈ d :: '.' :: frac, isExpChar c = false := by
      intro c hc
      rcases List.mem_cons.mp hc with rfl | hc2
      · exact isExpChar_eq_false_of_isDigit c hd
      rcases List.mem_cons.mp hc2 with rfl | hc3
      · decide
      · exact isExpChar_eq_false_of_isDigit c (hfrac c hc3)
    rw [toApiDecimalNumChars_sci (d :: '.' :: frac) expChars hm hE, hexp]
    rw [if_neg (by omega)]
    have hint : (d :: '.' :: frac).takeWhile (· ≠ '.') = [d] := by
      have := takeWhile_append_stop (fun c => decide (c ≠ '.')) [d] '.' frac
        (by
          intro x hx
          simp only [List.mem_singleton] at hx
          subst hx
          simp [ne_dot_of_isDigit x hd])
        (by decide)
      simpa using this
    rw [hint]
    have hfracPart : ((d :: '.' :: frac).drop ([d].length + 1)).takeWhile (· ≠ '.') = frac := by
      rw [show (d :: '.' :: frac).drop ([d].length + 1) = frac from rfl]
      exact takeWhile_all _ frac (fun x hx => by simp [ne_dot_of_isDigit x (hfrac x hx)])
    rw [hfracPart]
    have hnat : ((-((k : Int) + 1)).natAbs - 1) = k := by omega
    rw [hnat]
    have hid := stripDotZeros_id ('0' :: '.' :: List.replicate k '0') (d :: frac)
      (by
        intro c hc
        rcases List.mem_cons.mp hc with rfl | hc2
        · exact ne_dot_of_isDigit c hd
        · exact ne_dot_of_isDigit c (hfrac c hc2))
      (ne_zero_or_exists_of_isDigit hnz)
    simpa using hid
  · unfold decValue sciVal
    dsimp only
    have hint2 : ('0' :: '.' :: (List.replicate k '0' ++ d :: frac)).takeWhile (· ≠ '.')
        = ['0'] := by
      simp [List.takeWhile_cons]
    rw [hint2]
    rw [show ('0' :: '.' :: (List.replicate k '0' ++ d :: frac)).drop (['0'].length + 1)
        = List.replicate k '0' ++ d :: frac from rfl]
    rw [digitsVal_replicate_zero k (d :: frac),
      show (d :: frac) = [d] ++ frac from rfl, digitsVal_append]
    simp only [List.length_append, List.length_replicate, List.length_cons,
      List.length_singleton]
    have hzpow : (10 : ℚ) ^ (-((k : Int) + 1)) = ((10 : ℚ) ^ (k + 1))⁻¹ := by
      rw [show -((k : Int) + 1) = -(((k + 1 : Nat) : Int)) by push_cast; ring,
        zpow_neg, zpow_natCast]
    rw [hzpow]
    have h0 : (digitsVal ['0'] : ℚ) = 0 := by simp [digitsVal]
    rw [h0]
    push_cast
    have hne1 : (10 : ℚ) ^ frac.length ≠ 0 := by positivity
    have hne2 : (10 : ℚ) ^ (k + (frac.length + 1)) ≠ 0 := by positivity
    have hne3 : (10 : ℚ) ^ (k + 1) ≠ 0 := by positivity
    field_simp
    rw [← pow_add]
    ring_nf
    exact Or.inl trivial
  · intro hd0
    constructor
    · have hm1 : ∀ c ∈ [d], isExpChar c = false := by
        intro c hc
        simp only [List.mem_singleton] at hc
        subst hc
        exact isExpChar_eq_false_of_isDigit c hd
      rw [toApiDecimalNumChars_sci [d] expChars hm1 hE, hexp]
      rw [if_neg (by omega)]
      have hint : ([d] : List Char).takeWhile (· ≠ '.') = [d] :=
        takeWhile_all _ [d] (by
          intro x hx
          simp only [List.mem_singleton] at hx
          subst hx
          simp [ne_dot_of_isDigit x hd])
      rw [hint]
      rw [show (([d] : List Char).drop ([d].length + 1)).takeWhile (· ≠ '.')
          = ([] : List Char) from rfl]
      have hnat : ((-((k : Int) + 1)).natAbs - 1) = k := by omega
      rw [hnat]
      have hid := stripDotZeros_id ('0' :: '.' :: List.replicate k '0') [d]
        (by
          intro c hc
          simp only [List.mem_singleton] at hc
          subst hc
          exact ne_dot_of_isDigit c hd)
        ⟨d, List.mem_singleton_self d, hd0⟩
      simpa using hid
    · unfold decValue sciVal
      dsimp only
      have hint2 : ('0' :: '.' :: (List.replicate k '0' ++ [d])).takeWhile (· ≠ '.')
          = ['0'] := by
        simp [List.takeWhile_cons]
      rw [hint2]
      rw [show ('0' :: '.' :: (List.replicate k '0' ++ [d])).drop (['0'].length + 1)
          = List.replicate k '0' ++ [d] from rfl]
      rw [digitsVal_replicate_zero k [d]]
      simp only [List.length_append, List.length_replicate, List.length_cons,
        List.length_nil, List.length_singleton]
      have hzpow : (10 : ℚ) ^ (-((k : Int) + 1)) = ((10 : ℚ) ^ (k + 1))⁻¹ := by
        rw [show -((k : Int) + 1) = -(((k + 1 : Nat) : Int)) by push_cast; ring,
          zpow_neg, zpow_natCast]
      rw [hzpow]
      have h0 : (digitsVal ['0'] : ℚ) = 0 := by simp [digitsVal]
      have hnil : (digitsVal ([] : List Char) : ℚ) = 0 := by simp [digitsVal]
      rw [h0, hnil]
      have hne3 : (10 : ℚ) ^ (k + 1) ≠ 0 := by positivity
      field_simp

/-- C2 / code-bug evidence: the double `1.5e21` is finite and renders as
`"1.5e+21"`; the positive-exponent branch pads the fractional digits to
`exponent + fractionalPart.length` zeros instead of `exponent`, so the
codec emits `"15"` followed by 21 zeros — the decimal string of
`1.5e22` — and parsing the output back does not yield the input value
`1.5e21` (which is `15 * 10^20`). -/
theorem toApiDecimal_roundTrip_bug :
    toApiDecimal (.num "1.5e+21") = "15000000000000000000000"
    ∧ digitsVal (toApiDecimalNumChars "1.5e+21".toList) = 15 * 10 ^ 21
    ∧ sciVal ['1'] ['5'] 21 = 15 * 10 ^ 20
    ∧ (15 * 10 ^ 21 : ℚ) ≠ 15 * 10 ^ 20 := by
  have e1 : digitsVal ['1'] = 1 := by decide
  have e5 : digitsVal ['5'] = 5 := by decide
  refine ⟨by decide, by decide, ?_, by norm_num⟩
  simp only [sciVal, e1, e5]
  norm_num

/-- Witness for C8's amended theorem at the scenario-C rendering
`1.23e-7` and at the dotless rendering `1e-7`. -/
theorem toApiDecimal_negExp_amended_witness :
    toApiDecimalNumChars (('1' :: '.' :: ['2', '3']) ++ 'e' :: ['-', '7'])
      = '0' :: '.' :: (List.replicate 6 '0' ++ '1' :: ['2', '3'])
    ∧ decValue ('0' :: '.' :: (List.replicate 6 '0' ++ '1' :: ['2', '3']))
      = sciVal ['1'] ['2', '3'] (-((6 : Int) + 1))
    ∧ toApiDecimalNumChars (['1'] ++ 'e' :: ['-', '7'])
      = '0' :: '.' :: (List.replicate 6 '0' ++ ['1'])
    ∧ decValue ('0' :: '.' :: (List.replicate 6 '0' ++ ['1']))
      = sciVal ['1'] [] (-((6 : Int) + 1))
    ∧ toApiDecimalNum "1.23e-7" = "0.000000123" :=
  ⟨(toApiDecimal_negExp_amended '1' ['2', '3'] ['-', '7'] 6 (by decide)
      (by decide) (by decide) (by decide) (by decide)).1,
   (toApiDecimal_negExp_amended '1' ['2', '3'] ['-', '7'] 6 (by decide)
      (by decide) (by decide) (by decide) (by decide)).2.1,
   ((toApiDecimal_negExp_amended '1' ['2', '3'] ['-', '7'] 6 (by decide)
      (by decide) (by decide) (by decide) (by decide)).2.2.1 (by decide)).1,
   ((toApiDecimal_negExp_amended '1' ['2', '3'] ['-', '7'] 6 (by decide)
      (by decide) (by decide) (by decide) (by decide)).2.2.1 (by decide)).2,
   (toApiDecimal_negExp_amended '1' ['2', '3'] ['-', '7'] 6 (by decide)
      (by decide) (by decide) (by decide) (by decide)).2.2.2⟩

/-- Witness for C4's amended theorem at a concrete symbol and universe. -/
theorem resolveAssetIndex_amended_witness :
    ('-' ∉ "btc".toList)
    ∧ resolveAssetIndex ("btc" ++ "-" ++ "USD") ["ETH", "BTC"]
        = resolveAssetIndex "btc" ["ETH", "BTC"] :=
  ⟨by decide, (resolveAssetIndex_amended "btc" "USD" ["ETH", "BTC"] (by decide)).1⟩

end Hype
